import Mathlib

/-!
# Verification of the OpenLB GUI case-repository subsystem

Shallow embedding of the OpenLB_GUI repository's logic.  The frontend
helpers (`appendLog`, the LRU `configCache`) are embedded directly from
`src/openlb-gui/frontend/src/App.tsx`.  The server-side components
(PathGuard, CaseScanner, ConfigStore, ProcessRunner, CaseReplicator) are
not present in the repository snapshot; they are modelled from the spec,
as marked on each definition.

JavaScript strings are modelled as `List Char`; `s.slice(k)` for
`0 ≤ k ≤ s.length` is `List.drop k`.
-/

namespace OpenLBGui

/-! ## Frontend: `App.tsx` -/

/-- `MAX_LOG_LENGTH` from `App.tsx` line 11. -/
def MAX_LOG_LENGTH : Nat := 100000

/-- Embedding of `appendLog` from `App.tsx` lines 48-64.
The JS condition `newLog.length >= MAX_LOG_LENGTH` is `MAX_LOG_LENGTH ≤ newLog.length`;
`s.slice(s.length - k)` is `s.drop (s.length - k)`. -/
def appendLog (currentLog newLog : List Char) : List Char :=
  if MAX_LOG_LENGTH ≤ newLog.length then
    newLog.drop (newLog.length - MAX_LOG_LENGTH)
  else if currentLog.length + newLog.length ≤ MAX_LOG_LENGTH then
    currentLog ++ newLog
  else
    currentLog.drop (currentLog.length - (MAX_LOG_LENGTH - newLog.length)) ++ newLog

/-! ## Frontend: the `configCache` LRU map (`App.tsx` lines 41-44, 84-110, 123-146)

The JS `Map` is modelled as an association list in insertion order, oldest
entry first; `Map` iteration order in JS is insertion order, which is what the
LRU scheme in `App.tsx` relies on. -/

/-- The `configCache` contents: key/value pairs in insertion order. -/
abbrev Cache := List (String × String)

/-- `configCache.current.has(k)`. -/
def cacheHas (c : Cache) (k : String) : Bool :=
  c.any (fun kv => kv.1 == k)

/-- `configCache.current.get(k)`. -/
def cacheGet (c : Cache) (k : String) : Option String :=
  (c.find? (fun kv => kv.1 == k)).map (fun kv => kv.2)

/-- `configCache.current.delete(k)`. -/
def cacheDelete (c : Cache) (k : String) : Cache :=
  c.filter (fun kv => kv.1 != k)

/-- `configCache.current.set(k, v)`: JS `Map.set` updates the value in place
when the key is present (keeping its position), otherwise appends a new entry. -/
def cacheSet (c : Cache) (k v : String) : Cache :=
  if cacheHas c k then c.map (fun kv => if kv.1 == k then (k, v) else kv)
  else c ++ [(k, v)]

/-- `const firstKey = configCache.current.keys().next().value;
if (firstKey) configCache.current.delete(firstKey)` — `App.tsx` lines 103-104
and 138-139.  `if (firstKey)` is JS truthiness: the delete is skipped when the
map is empty (`firstKey` is `undefined`) and also when the first key is the
empty string (`""` is falsy). -/
def evictOldest (c : Cache) : Cache :=
  match c.head? with
  | none => c
  | some kv => if kv.1 = "" then c else cacheDelete c kv.1

/-- Cache effect of `fetchConfig` (`App.tsx` lines 84-110).  On a hit the entry
is refreshed (delete + re-insert at the end); `(cacheGet c casePath).getD ""`
models the non-null assertion `configCache.current.get(casePath)!`.
`fetched = none` models a failed network request (the `catch` path leaves the
cache untouched); `fetched = some content` a successful response. -/
def fetchConfigCache (c : Cache) (casePath : String) (fetched : Option String) : Cache :=
  if cacheHas c casePath then
    cacheSet (cacheDelete c casePath) casePath ((cacheGet c casePath).getD "")
  else
    match fetched with
    | none => c
    | some content =>
      let c1 := if 20 ≤ c.length then evictOldest c else c
      cacheSet c1 casePath content

/-- Cache effect of `handleSaveConfig` (`App.tsx` lines 123-146); `ok = false`
models a failed POST (`!res.ok` or a network error throws before any cache
mutation). -/
def saveConfigCache (c : Cache) (casePath content : String) (ok : Bool) : Cache :=
  if ok then
    let c1 :=
      if cacheHas c casePath then cacheDelete c casePath
      else if 20 ≤ c.length then evictOldest c else c
    cacheSet c1 casePath content
  else c

/-- A cache-mutating operation of the `App` component. -/
inductive CacheOp where
  | fetch (casePath : String) (fetched : Option String)
  | save (casePath content : String) (ok : Bool)

/-- The case path an operation touches. -/
def CacheOp.key : CacheOp → String
  | .fetch p _ => p
  | .save p _ _ => p

/-- One operation applied to the cache. -/
def cacheStep (c : Cache) : CacheOp → Cache
  | .fetch p f => fetchConfigCache c p f
  | .save p content ok => saveConfigCache c p content ok

/-- A whole session: the component mounts with an empty cache and applies the
operations in order. -/
def runCacheOps (ops : List CacheOp) : Cache :=
  ops.foldl cacheStep []

/-- A session driving the cache to 21 entries: the key `""` is inserted first,
stays oldest, and its falsiness disables eviction on the 21st insert. -/
def overflowOps : List CacheOp :=
  (["", "k01", "k02", "k03", "k04", "k05", "k06", "k07", "k08", "k09", "k10",
    "k11", "k12", "k13", "k14", "k15", "k16", "k17", "k18", "k19",
    "k20"]).map (fun k => CacheOp.fetch k (some "v"))

/-! ## PathGuard

Modelled from the spec: the server-side implementation is not present under
`src/` (only the frontend and design journals are); §4.1 of the spec defines
the contract, and the journal entry "Path Traversal via String Prefix
Matching" records the required design. -/

/-- Splitting a character list on the path separator. -/
def splitOnSlash : List Char → List (List Char)
  | [] => [[]]
  | c :: rest =>
    match splitOnSlash rest with
    | [] => if c = '/' then [[], []] else [[c]]
    | s :: ss => if c = '/' then [] :: s :: ss else (c :: s) :: ss

/-- Modelled from the spec: canonicalization of a path (spec §4.1, PathGuard).
A path is split on `/`; empty and `.` segments vanish, and `..` removes the
previous segment, so the canonical form is the list of real path components. -/
def canonSegments (p : String) : List (List Char) :=
  (splitOnSlash p.toList).foldl
    (fun acc seg =>
      if seg = [] ∨ seg = ['.'] then acc
      else if seg = ['.', '.'] then acc.dropLast
      else acc ++ [seg])
    []

/-- The PathGuard failure signal (spec §7). -/
inductive PathError where
  | pathSecurityError
deriving DecidableEq

/-- Modelled from the spec: `PathGuard.resolve(root, candidate)` (spec §4.1) —
canonicalize both paths, then require that the root's segment list is a
segment-wise prefix of the candidate's (structural containment), never a raw
string comparison. -/
def PathGuard.resolve (root candidate : String) : Except PathError (List (List Char)) :=
  if (canonSegments root).isPrefixOf (canonSegments candidate) then
    .ok (canonSegments candidate)
  else
    .error .pathSecurityError

/-! ## ProcessRunner and the AdmissionGate

Modelled from the spec (§3, §4.4, §5): the server-side implementation is not
present under `src/`. -/

/-- Terminal cause of a run (spec §3, RunResult). -/
inductive RunCause where
  | completed
  | timedOut
  | failedToStart
deriving DecidableEq

/-- Modelled from the spec: the phase of one RunRequest relative to the
AdmissionGate — the §4.4 state machine plus the `Busy` rejection outcome. -/
inductive ReqPhase where
  | idle
  | executing
  | finished (c : RunCause)
  | busy
deriving DecidableEq

/-- Modelled from the spec: whole-system state — the single AdmissionGate bit
plus the multiset of request phases (spec §3 AdmissionGate, §5). -/
structure GateSys where
  gate : Bool
  reqs : Multiset ReqPhase

/-- Modelled from the spec (§4.4 concurrency policy): one atomic step of the
orchestration.  `acquire` succeeds only when the gate is free and marks it
held; an idle request finding the gate held becomes `busy` in a single step —
it never queues; a finishing request (any cause: success, failure, timeout,
spawn error) releases the gate unconditionally. -/
inductive GateStep : GateSys → GateSys → Prop where
  | acquire (m : Multiset ReqPhase) :
      GateStep ⟨false, .idle ::ₘ m⟩ ⟨true, .executing ::ₘ m⟩
  | reject (m : Multiset ReqPhase) :
      GateStep ⟨true, .idle ::ₘ m⟩ ⟨true, .busy ::ₘ m⟩
  | finish (g : Bool) (c : RunCause) (m : Multiset ReqPhase) :
      GateStep ⟨g, .executing ::ₘ m⟩ ⟨false, .finished c ::ₘ m⟩

/-- Number of requests currently in the executing phase. -/
def execCount (s : GateSys) : Nat :=
  Multiset.count .executing s.reqs

/-- Reachability from the initial state: gate free, `k` idle requests. -/
def GateReach (k : Nat) (s : GateSys) : Prop :=
  Relation.ReflTransGen GateStep ⟨false, Multiset.replicate k .idle⟩ s

/-- Modelled from the spec: the result every run produces (spec §3). -/
structure RunResult where
  stdout : List Char
  stderr : List Char
  success : Bool
  duration : Nat
  cause : RunCause

/-- Modelled from the spec: an external child process, abstracted by whether
it can be spawned, the time it needs to exit on its own, the output it has
produced by each time instant, and its exit status.  Time is in abstract
units. -/
structure Child where
  spawnOk : Bool
  runtime : Nat
  stdoutAt : Nat → List Char
  stderrAt : Nat → List Char
  exitSuccess : Bool

/-- Modelled from the spec: `ProcessRunner.run` (spec §4.4) — a single
blocking wait bounded by the timeout.  If the child exits within the timeout
the full result is reported; on expiry the child is forcibly terminated and
whatever output was captured up to the timeout is returned with cause
`timedOut`; a spawn failure reports `failedToStart`.  A `RunResult` is
produced on every path. -/
def ProcessRunner.run (child : Child) (timeout : Nat) : RunResult :=
  if child.spawnOk = false then
    ⟨[], [], false, 0, .failedToStart⟩
  else if child.runtime ≤ timeout then
    ⟨child.stdoutAt child.runtime, child.stderrAt child.runtime,
      child.exitSuccess, child.runtime, .completed⟩
  else
    ⟨child.stdoutAt timeout, child.stderrAt timeout, false, timeout, .timedOut⟩

/-! ## ConfigStore

Modelled from the spec (§4.3) and the journal entry "Preserve File
Permissions in Configuration Save": the server-side implementation is not
present under `src/`. -/

/-- A file on disk: content plus permission mode bits. -/
structure FsFile where
  content : List Char
  mode : Nat
deriving DecidableEq

/-- The filesystem state the write path touches: the target config file and
the sibling temporary file. -/
structure WriteFS where
  target : Option FsFile
  temp : Option FsFile
deriving DecidableEq

/-- Modelled from the spec: the default permission bits a freshly created
temporary file receives from the library (journal: `tempfile` defaults),
before the explicit chmod copies the original bits over. -/
def defaultTempMode : Nat := 0o600

/-- One primitive filesystem action of the atomic write path. -/
inductive WOp where
  | createTemp
  | appendTemp (chunk : List Char)
  | chmodTemp (m : Nat)
  | renameTempToTarget
deriving DecidableEq

/-- Effect of one write-path action.  Only `renameTempToTarget` ever touches
the target file, and it installs the whole temporary file at once (the atomic
rename). -/
def applyWOp (s : WriteFS) : WOp → WriteFS
  | .createTemp => { s with temp := some ⟨[], defaultTempMode⟩ }
  | .appendTemp ch => { s with temp := s.temp.map (fun f => ⟨f.content ++ ch, f.mode⟩) }
  | .chmodTemp m => { s with temp := s.temp.map (fun f => ⟨f.content, m⟩) }
  | .renameTempToTarget => ⟨s.temp, none⟩

/-- Modelled from the spec: the action sequence of `ConfigStore.write`
(spec §4.3) — create a sibling temporary file, write the content (possibly
incrementally, in chunks), copy the original file's permission bits onto the
temporary file, then rename it over the target. -/
def writePlan (origMode : Nat) (chunks : List (List Char)) : List WOp :=
  .createTemp :: (chunks.map WOp.appendTemp ++ [.chmodTemp origMode, .renameTempToTarget])

/-- `ConfigStore.read` failure signals (spec §4.3, §7). -/
inductive ReadError where
  | notFound
  | tooLarge
deriving DecidableEq

/-- Filesystem actions observable during `ConfigStore.read`:  opening the
file, querying the open handle's metadata, reading the full contents, or a
separate path-based stat (which a correct implementation never performs). -/
inductive FsEvent where
  | openHandle
  | fstatHandle
  | readFull
  | statPath
deriving DecidableEq

/-- Modelled from the spec: `ConfigStore.read` (spec §4.3) together with the
trace of filesystem actions it performs.  A missing file fails `notFound`;
otherwise the size is checked against the maximum via the already-open
handle's metadata, and only when it is within bounds are the contents read. -/
def ConfigStore.read (file : Option (List Char)) (maxSize : Nat) :
    Except ReadError (List Char) × List FsEvent :=
  match file with
  | none => (.error .notFound, [.openHandle])
  | some content =>
    if maxSize < content.length then
      (.error .tooLarge, [.openHandle, .fstatHandle])
    else
      (.ok content, [.openHandle, .fstatHandle, .readFull])

/-! ## CaseReplicator

Modelled from the spec (§4.5) and the journal entries "Efficient Case
Duplication" / "Optimized Ignore Patterns": the server-side implementation is
not present under `src/`. -/

/-- Modelled from the spec: the allow-listed characters for a new case name —
alphanumeric, hyphen, underscore. -/
def allowedChar (c : Char) : Bool :=
  c.isAlphanum || c == '-' || c == '_'

/-- Modelled from the spec: reserved platform device names. -/
def reservedNames : List String :=
  ["CON", "PRN", "AUX", "NUL",
   "COM1", "COM2", "COM3", "COM4", "COM5", "COM6", "COM7", "COM8", "COM9",
   "LPT1", "LPT2", "LPT3", "LPT4", "LPT5", "LPT6", "LPT7", "LPT8", "LPT9"]

/-- Modelled from the spec: artifact entries excluded from duplication by an
exact-name set (journal: the `tmp` directory). -/
def artifactNames : List String := ["tmp"]

/-- Modelled from the spec: artifact extensions excluded from duplication
(journal: `*.vtk` output files and `*.o` compiled objects). -/
def artifactSuffixes : List String := [".vtk", ".o"]

/-- ASCII uppercasing of a name, character by character (used for the
case-insensitive reserved-name comparison). -/
def upperAscii (name : String) : String :=
  String.mk (name.toList.map Char.toUpper)

/-- An entry is an artifact iff its exact name is in the set or its name ends
with one of the fixed suffixes — an O(1)-per-entry test. -/
def isArtifact (entry : String) : Bool :=
  artifactNames.contains entry
  || artifactSuffixes.any (fun suf => suf.toList.isSuffixOf entry.toList)

/-- Modelled from the spec: name validation for `duplicate` — every character
allow-listed, no reserved device name (case-insensitive), no collision with an
existing case. -/
def validNewName (existingNames : List String) (name : String) : Bool :=
  name.toList.all allowedChar
  && !(decide (upperAscii name ∈ reservedNames))
  && !(decide (name ∈ existingNames))

/-- The CaseReplicator failure signal (spec §4.5, §7). -/
inductive DupError where
  | validationError
deriving DecidableEq

/-- Modelled from the spec: `CaseReplicator.duplicate(source, newName)` —
validate the name, then copy the source tree excluding artifact entries.  The
source tree is abstracted as the list of its entry names. -/
def CaseReplicator.duplicate (existingNames : List String) (sourceTree : List String)
    (newName : String) : Except DupError (String × List String) :=
  if validNewName existingNames newName then
    .ok (newName, sourceTree.filter (fun e => !(isArtifact e)))
  else
    .error .validationError

/-! ## CaseScanner

Modelled from the spec (§4.2, §6) and the journal entries "Optimized
Directory Traversal" / "Memory Efficient Directory Scanning": the server-side
implementation is not present under `src/`. -/

/-- A directory entry as handed back by the operating system: a regular file,
a subdirectory with its own entries, or a malformed entry the scanner cannot
interpret (unreadable, undecodable, …). -/
inductive FsEntry where
  | file (name : String)
  | dir (name : String) (children : List FsEntry)
  | malformed

/-- Modelled from the spec: the marker file whose presence classifies a
directory as a Case (glossary: build descriptor; OpenLB cases carry a
Makefile). -/
def buildDescriptorName : String := "Makefile"

/-- A directory (given by its entries) directly contains the build
descriptor. -/
def hasDescriptor (children : List FsEntry) : Bool :=
  children.any fun e =>
    match e with
    | .file n => n == buildDescriptorName
    | _ => false

/-- A case: identified by its domain (first-level folder) and name
(second-level folder); its relative path `domain/name` is derived from the
identity (spec §3). -/
structure Case where
  domain : String
  name : String
deriving DecidableEq

/-- The case's path segments, two levels below the root. -/
def Case.segments (c : Case) : List String :=
  [c.domain, c.name]

/-- Modelled from the spec: the cases directly below one domain folder — a
child is a Case iff it is a directory directly containing the build
descriptor; file entries and malformed entries are skipped, never raised
on. -/
def casesInDomain (domain : String) (children : List FsEntry) : List Case :=
  children.filterMap fun e =>
    match e with
    | .dir n cs => if hasDescriptor cs then some ⟨domain, n⟩ else none
    | _ => none

/-- Unsorted scan: one level into domain folders, one further level into case
folders; never deeper, and never past a classified case directory. -/
def rawCases (root : List FsEntry) : List Case :=
  root.flatMap fun e =>
    match e with
    | .dir d cs => casesInDomain d cs
    | _ => []

/-- The deterministic output order: domain ascending, then name ascending. -/
def caseR (a b : Case) : Prop :=
  a.domain < b.domain ∨ (a.domain = b.domain ∧ a.name ≤ b.name)

instance : DecidableRel caseR := fun a b => by
  unfold caseR
  exact inferInstance

instance : IsTotal Case caseR where
  total a b := by
    unfold caseR
    rcases lt_trichotomy a.domain b.domain with h | h | h
    · exact Or.inl (Or.inl h)
    · rcases le_total a.name b.name with hn | hn
      · exact Or.inl (Or.inr ⟨h, hn⟩)
      · exact Or.inr (Or.inr ⟨h.symm, hn⟩)
    · exact Or.inr (Or.inl h)

instance : IsTrans Case caseR where
  trans a b c hab hbc := by
    unfold caseR at hab hbc ⊢
    rcases hab with h1 | ⟨h1, h1'⟩ <;> rcases hbc with h2 | ⟨h2, h2'⟩
    · exact Or.inl (lt_trans h1 h2)
    · exact Or.inl (h2 ▸ h1)
    · exact Or.inl (h1 ▸ h2)
    · exact Or.inr ⟨h1.trans h2, le_trans h1' h2'⟩

instance : IsAntisymm Case caseR where
  antisymm a b hab hba := by
    unfold caseR at hab hba
    rcases hab with h1 | ⟨h1, h1'⟩ <;> rcases hba with h2 | ⟨h2, h2'⟩
    · exact absurd (lt_trans h1 h2) (lt_irrefl _)
    · exact absurd h1 (h2 ▸ lt_irrefl _)
    · exact absurd h2 (h1 ▸ lt_irrefl _)
    · cases a
      cases b
      simp only at h1 h1' h2'
      subst h1
      rw [le_antisymm h1' h2']

/-- Modelled from the spec: `CaseScanner.listCases` — scan two levels, then
sort deterministically by domain then name, independently of the order the
filesystem handed entries back. -/
def CaseScanner.listCases (root : List FsEntry) : List Case :=
  List.insertionSort caseR (rawCases root)

/-- Wiping the children of a depth-3 directory: anything below the direct
children of a case directory. -/
def pruneGrand : FsEntry → FsEntry
  | .dir m _ => .dir m []
  | x => x

/-- Truncating a case-level directory: its direct children (the descriptor
check needs their names) are kept, anything deeper is wiped. -/
def pruneCaseEntry : FsEntry → FsEntry
  | .dir n cs => .dir n (cs.map pruneGrand)
  | x => x

/-- Truncating a domain-level directory at the case boundary. -/
def pruneDomainEntry : FsEntry → FsEntry
  | .dir d cs => .dir d (cs.map pruneCaseEntry)
  | x => x

/-- The root tree truncated at the case boundary: everything below the direct
children of case directories is removed.  A scanner that never descends into a
classified case's subtree cannot distinguish this from the original root. -/
def pruneBelowCases (root : List FsEntry) : List FsEntry :=
  root.map pruneDomainEntry

/-! ## Theorems -/

theorem appendLog_eq_drop (cur new : List Char) :
    appendLog cur new
      = (cur ++ new).drop
          (cur.length + new.length - min MAX_LOG_LENGTH (cur.length + new.length)) := by
  unfold appendLog
  split
  · next h =>
    have hmin : min MAX_LOG_LENGTH (cur.length + new.length) = MAX_LOG_LENGTH := by omega
    have harith : cur.length + new.length - MAX_LOG_LENGTH
        = cur.length + (new.length - MAX_LOG_LENGTH) := by omega
    rw [hmin, harith, List.drop_append]
  · next h =>
    split
    · next h2 =>
      have : cur.length + new.length - min MAX_LOG_LENGTH (cur.length + new.length) = 0 := by
        omega
      rw [this, List.drop_zero]
    · next h2 =>
      have hmin : min MAX_LOG_LENGTH (cur.length + new.length) = MAX_LOG_LENGTH := by omega
      have harith : cur.length + new.length - MAX_LOG_LENGTH
          = cur.length - (MAX_LOG_LENGTH - new.length) := by omega
      rw [hmin, harith, List.drop_append_of_le_length (by omega)]

/-- C9: `appendLog(currentLog, newLog)` returns the suffix of the concatenation
`currentLog ++ newLog` of length `min MAX_LOG_LENGTH (length (currentLog ++ newLog))`;
the result never exceeds `MAX_LOG_LENGTH = 100000` characters, and when the
concatenation already fits within the limit the result is exactly
`currentLog ++ newLog`. -/
theorem C9_appendLog_bounded_suffix (cur new : List Char) :
    appendLog cur new
      = (cur ++ new).drop
          (cur.length + new.length - min MAX_LOG_LENGTH (cur.length + new.length))
    ∧ (appendLog cur new).length = min MAX_LOG_LENGTH (cur.length + new.length)
    ∧ (appendLog cur new).length ≤ MAX_LOG_LENGTH
    ∧ (cur.length + new.length ≤ MAX_LOG_LENGTH → appendLog cur new = cur ++ new) := by
  have hd := appendLog_eq_drop cur new
  have hlen : (appendLog cur new).length
      = min MAX_LOG_LENGTH (cur.length + new.length) := by
    rw [hd, List.length_drop, List.length_append]
    omega
  refine ⟨hd, hlen, by omega, fun hfit => ?_⟩
  rw [hd]
  have : cur.length + new.length - min MAX_LOG_LENGTH (cur.length + new.length) = 0 := by
    omega
  rw [this, List.drop_zero]

/-- C9 witness: concrete evaluation of the theorem at a small input. -/
theorem C9_appendLog_bounded_suffix_witness :
    appendLog ['a', 'b'] ['c'] = ['a', 'b', 'c'] :=
  (C9_appendLog_bounded_suffix ['a', 'b'] ['c']).2.2.2 (by decide)

theorem cacheSet_length (c : Cache) (k v : String) :
    (cacheSet c k v).length = if cacheHas c k then c.length else c.length + 1 := by
  unfold cacheSet
  split
  · next h => simp [h]
  · next h => simp [h]

theorem cacheDelete_length_le (c : Cache) (k : String) :
    (cacheDelete c k).length ≤ c.length :=
  List.length_filter_le _ _

theorem cacheDelete_length_lt (c : Cache) (k : String) (h : cacheHas c k = true) :
    (cacheDelete c k).length < c.length := by
  induction c with
  | nil => simp [cacheHas] at h
  | cons kv t ih =>
    by_cases hk : (kv.1 == k) = true
    · have : (kv.1 != k) = false := by simp [bne, hk]
      simp only [cacheDelete, List.filter_cons, this]
      exact Nat.lt_succ_of_le (List.length_filter_le _ _)
    · have hkb : (kv.1 != k) = true := by simp [bne] at hk ⊢; exact hk
      have ht : cacheHas t k = true := by
        simp only [cacheHas, List.any_cons, Bool.or_eq_true] at h
        rcases h with h | h
        · exact absurd h hk
        · exact h
      simp only [cacheDelete, List.filter_cons, hkb]
      simpa using Nat.succ_lt_succ (ih ht)

theorem mem_cacheSet (c : Cache) (k v : String) (kv : String × String)
    (h : kv ∈ cacheSet c k v) : kv.1 = k ∨ kv ∈ c := by
  unfold cacheSet at h
  split at h
  · rcases List.mem_map.mp h with ⟨kv', hkv', heq⟩
    by_cases hk : (kv'.1 == k) = true
    · simp [hk] at heq
      left
      rw [← heq]
    · simp [hk] at heq
      right
      rw [← heq]
      exact hkv'
  · rcases List.mem_append.mp h with h | h
    · exact Or.inr h
    · left
      simp at h
      simp [h]

theorem mem_cacheDelete (c : Cache) (k : String) (kv : String × String)
    (h : kv ∈ cacheDelete c k) : kv ∈ c :=
  List.mem_of_mem_filter h

theorem mem_evictOldest (c : Cache) (kv : String × String)
    (h : kv ∈ evictOldest c) : kv ∈ c := by
  unfold evictOldest at h
  split at h
  · exact h
  · split at h
    · exact h
    · exact mem_cacheDelete _ _ _ h

theorem evictOldest_length_lt (c : Cache) (hne : c ≠ [])
    (hkeys : ∀ kv ∈ c, kv.1 ≠ "") :
    (evictOldest c).length < c.length := by
  unfold evictOldest
  match hc : c.head? with
  | none => exact absurd (List.head?_eq_none_iff.mp hc) hne
  | some kv =>
    have hmem : kv ∈ c := List.mem_of_mem_head? hc
    have hk : kv.1 ≠ "" := hkeys kv hmem
    simp only [hk, if_false]
    apply cacheDelete_length_lt
    simp only [cacheHas, List.any_eq_true]
    exact ⟨kv, hmem, by simp⟩

/-- The invariant the LRU code maintains for nonempty keys: at most 20 entries,
all with nonempty keys. -/
def CacheInv (c : Cache) : Prop :=
  c.length ≤ 20 ∧ ∀ kv ∈ c, kv.1 ≠ ""

theorem cacheStep_preserves_inv (c : Cache) (op : CacheOp)
    (hinv : CacheInv c) (hkey : op.key ≠ "") : CacheInv (cacheStep c op) := by
  obtain ⟨hlen, hkeys⟩ := hinv
  have hset_len : ∀ (c' : Cache) (k v : String), (cacheSet c' k v).length ≤ c'.length + 1 := by
    intro c' k v
    rw [cacheSet_length]
    split <;> omega
  have hset_keys : ∀ (c' : Cache) (k v : String), k ≠ "" → (∀ kv ∈ c', kv.1 ≠ "") →
      ∀ kv ∈ cacheSet c' k v, kv.1 ≠ "" := by
    intro c' k v hk hc' kv hkv
    rcases mem_cacheSet c' k v kv hkv with h | h
    · rw [h]; exact hk
    · exact hc' kv h
  have hdel_keys : ∀ (c' : Cache) (k : String), (∀ kv ∈ c', kv.1 ≠ "") →
      ∀ kv ∈ cacheDelete c' k, kv.1 ≠ "" :=
    fun c' k hc' kv hkv => hc' kv (mem_cacheDelete c' k kv hkv)
  cases op with
  | fetch p f =>
    simp only [CacheOp.key] at hkey
    simp only [cacheStep, fetchConfigCache]
    split
    · next hhas =>
      constructor
      · have := hset_len (cacheDelete c p) p ((cacheGet c p).getD "")
        have := cacheDelete_length_lt c p hhas
        omega
      · exact hset_keys _ _ _ hkey (hdel_keys c p hkeys)
    · next hhas =>
      match f with
      | none => exact ⟨hlen, hkeys⟩
      | some content =>
        show CacheInv (cacheSet (if 20 ≤ c.length then evictOldest c else c) p content)
        by_cases h20 : 20 ≤ c.length
        · rw [if_pos h20]
          have hne : c ≠ [] := by
            intro hnil
            rw [hnil] at h20
            simp at h20
          have hev := evictOldest_length_lt c hne hkeys
          constructor
          · have := hset_len (evictOldest c) p content
            omega
          · exact hset_keys _ _ _ hkey
              (fun kv hkv => hkeys kv (mem_evictOldest c kv hkv))
        · rw [if_neg h20]
          constructor
          · have := hset_len c p content
            omega
          · exact hset_keys _ _ _ hkey hkeys
  | save p content ok =>
    simp only [CacheOp.key] at hkey
    simp only [cacheStep, saveConfigCache]
    split
    · next hok =>
      show CacheInv (cacheSet
        (if cacheHas c p then cacheDelete c p
         else if 20 ≤ c.length then evictOldest c else c) p content)
      by_cases hhas : cacheHas c p = true
      · rw [if_pos hhas]
        constructor
        · have := hset_len (cacheDelete c p) p content
          have := cacheDelete_length_lt c p hhas
          omega
        · exact hset_keys _ _ _ hkey (hdel_keys c p hkeys)
      · rw [if_neg hhas]
        by_cases h20 : 20 ≤ c.length
        · rw [if_pos h20]
          have hne : c ≠ [] := by
            intro hnil
            rw [hnil] at h20
            simp at h20
          have hev := evictOldest_length_lt c hne hkeys
          constructor
          · have := hset_len (evictOldest c) p content
            omega
          · exact hset_keys _ _ _ hkey
              (fun kv hkv => hkeys kv (mem_evictOldest c kv hkv))
        · rw [if_neg h20]
          constructor
          · have := hset_len c p content
            omega
          · exact hset_keys _ _ _ hkey hkeys
    · exact ⟨hlen, hkeys⟩

/-- C10 counterexample: the 21-operation session `overflowOps` (all successful
`fetchConfig` calls, the first one for the case path `""`) leaves the cache
with 21 entries, so the claimed bound of 20 is violated by the code as
written: the guard `if (firstKey)` skips eviction when the oldest key is the
empty string. -/
theorem C10_counterexample_overflow :
    20 < (runCacheOps overflowOps).length := by decide

theorem cacheFoldl_inv (ops : List CacheOp) :
    ∀ (c : Cache), (∀ op ∈ ops, op.key ≠ "") → CacheInv c →
      CacheInv (ops.foldl cacheStep c) := by
  induction ops with
  | nil => intro c _ hc; exact hc
  | cons op t ih =>
    intro c h hc
    have hop : op.key ≠ "" := h op (List.mem_cons_self _ _)
    have ht : ∀ op' ∈ t, op'.key ≠ "" := fun op' hop' => h op' (List.mem_cons_of_mem _ hop')
    exact ih _ ht (cacheStep_preserves_inv c op hc hop)

/-- C10 (amended): after any sequence of `fetchConfig` / `handleSaveConfig`
operations in which every case path is a nonempty string, the `configCache`
map holds at most 20 entries — eviction of the least-recently-used entry
before insertion keeps the bound invariant. -/
theorem C10_configCache_bounded (ops : List CacheOp)
    (h : ∀ op ∈ ops, op.key ≠ "") :
    (runCacheOps ops).length ≤ 20 :=
  (cacheFoldl_inv ops [] h ⟨by simp, by simp⟩).1

/-- C10 witness: the amended bound applied to a concrete two-operation session. -/
theorem C10_configCache_bounded_witness :
    (runCacheOps [CacheOp.fetch "a" (some "x"), CacheOp.save "b" "y" true]).length ≤ 20 :=
  C10_configCache_bounded _ (by decide)

/-- C1: `PathGuard.resolve(root, p)` succeeds only if the canonicalized form
of `p` is structurally contained (a path-segment relation, not a string
comparison) within the canonicalized form of `root`, and fails with
`PathSecurityError` otherwise; in particular the sibling directory
`cases_other` beside a root `cases` is rejected even though it shares the
textual prefix `cases` (last conjunct: a raw string comparison would have
admitted it), and a `..` escape below the root is rejected. -/
theorem C1_pathguard_containment :
    (∀ root p q, PathGuard.resolve root p = .ok q →
      canonSegments root <+: canonSegments p ∧ q = canonSegments p)
    ∧ (∀ root p, ¬ canonSegments root <+: canonSegments p →
      PathGuard.resolve root p = .error .pathSecurityError)
    ∧ PathGuard.resolve "cases" "cases_other" = .error .pathSecurityError
    ∧ PathGuard.resolve "data/cases" "data/cases/../cases_other/x"
        = .error .pathSecurityError
    ∧ ("cases".toList).isPrefixOf ("cases_other".toList) = true := by
  refine ⟨?_, ?_, ?_, ?_, ?_⟩
  · intro root p q h
    unfold PathGuard.resolve at h
    split at h
    · next hpre =>
      injection h with h
      exact ⟨List.isPrefixOf_iff_prefix.mp hpre, h.symm⟩
    · exact absurd h (by simp)
  · intro root p hn
    unfold PathGuard.resolve
    rw [if_neg (by
      intro hb
      exact hn (List.isPrefixOf_iff_prefix.mp hb))]
  · rfl
  · rfl
  · rfl

/-- C1 witness: a genuinely contained candidate resolves, with the hypothesis
discharged at the concrete input. -/
theorem C1_pathguard_containment_witness :
    canonSegments "cases" <+: canonSegments "cases/cavity2d"
      ∧ [['c', 'a', 's', 'e', 's'], ['c', 'a', 'v', 'i', 't', 'y', '2', 'd']]
          = canonSegments "cases/cavity2d" :=
  C1_pathguard_containment.1 "cases" "cases/cavity2d"
    [['c', 'a', 's', 'e', 's'], ['c', 'a', 'v', 'i', 't', 'y', '2', 'd']] (by rfl)

theorem gateStep_inv {s s' : GateSys} (h : GateStep s s')
    (hs : execCount s ≤ 1 ∧ (s.gate = false → execCount s = 0)) :
    execCount s' ≤ 1 ∧ (s'.gate = false → execCount s' = 0) := by
  have hne_idle : ReqPhase.executing ≠ .idle := by intro hh; cases hh
  have hne_busy : ReqPhase.executing ≠ .busy := by intro hh; cases hh
  cases h with
  | acquire m =>
    have h0 : Multiset.count ReqPhase.executing (.idle ::ₘ m) = 0 := hs.2 rfl
    rw [Multiset.count_cons_of_ne hne_idle] at h0
    constructor
    · show Multiset.count ReqPhase.executing (.executing ::ₘ m) ≤ 1
      rw [Multiset.count_cons_self, h0]
    · intro hg
      exact Bool.noConfusion hg
  | reject m =>
    have hle : Multiset.count ReqPhase.executing (.idle ::ₘ m) ≤ 1 := hs.1
    rw [Multiset.count_cons_of_ne hne_idle] at hle
    constructor
    · show Multiset.count ReqPhase.executing (.busy ::ₘ m) ≤ 1
      rw [Multiset.count_cons_of_ne hne_busy]
      exact hle
    · intro hg
      exact Bool.noConfusion hg
  | finish g c m =>
    have hne_fin : ReqPhase.executing ≠ .finished c := by intro hh; cases hh
    have hle : Multiset.count ReqPhase.executing (.executing ::ₘ m) ≤ 1 := hs.1
    rw [Multiset.count_cons_self] at hle
    have hm : Multiset.count ReqPhase.executing m = 0 := by omega
    constructor
    · show Multiset.count ReqPhase.executing (.finished c ::ₘ m) ≤ 1
      rw [Multiset.count_cons_of_ne hne_fin, hm]
      omega
    · intro _
      show Multiset.count ReqPhase.executing (.finished c ::ₘ m) = 0
      rw [Multiset.count_cons_of_ne hne_fin, hm]

theorem gateReach_inv (k : Nat) (s : GateSys) (h : GateReach k s) :
    execCount s ≤ 1 ∧ (s.gate = false → execCount s = 0) := by
  induction h with
  | refl =>
    constructor
    · show Multiset.count ReqPhase.executing (Multiset.replicate k .idle) ≤ 1
      simp [Multiset.count_replicate]
    · intro _
      show Multiset.count ReqPhase.executing (Multiset.replicate k .idle) = 0
      simp [Multiset.count_replicate]
  | tail _ hbc ih => exact gateStep_inv hbc ih

/-- C2: at most one RunRequest is executing system-wide in any reachable
state; while the gate is held no step creates a new executing request — an
idle request is rejected `busy` in a single step (no queuing, fourth
conjunct); and any step that ends an execution (every exit cause) leaves the
gate released. -/
theorem C2_admission_gate :
    (∀ k s, GateReach k s → execCount s ≤ 1)
    ∧ (∀ s s', GateStep s s' → s.gate = true → execCount s' ≤ execCount s)
    ∧ (∀ s s', GateStep s s' → execCount s' < execCount s → s'.gate = false)
    ∧ (∀ m : Multiset ReqPhase,
        GateStep ⟨true, .idle ::ₘ m⟩ ⟨true, .busy ::ₘ m⟩) := by
  have hne_idle : ReqPhase.executing ≠ .idle := by intro hh; cases hh
  have hne_busy : ReqPhase.executing ≠ .busy := by intro hh; cases hh
  refine ⟨fun k s h => (gateReach_inv k s h).1, ?_, ?_, fun m => GateStep.reject m⟩
  · intro s s' h hgate
    cases h with
    | acquire m => exact Bool.noConfusion hgate
    | reject m =>
      show Multiset.count ReqPhase.executing (.busy ::ₘ m)
          ≤ Multiset.count ReqPhase.executing (.idle ::ₘ m)
      rw [Multiset.count_cons_of_ne hne_busy, Multiset.count_cons_of_ne hne_idle]
    | finish g c m =>
      have hne_fin : ReqPhase.executing ≠ .finished c := by intro hh; cases hh
      show Multiset.count ReqPhase.executing (.finished c ::ₘ m)
          ≤ Multiset.count ReqPhase.executing (.executing ::ₘ m)
      rw [Multiset.count_cons_of_ne hne_fin, Multiset.count_cons_self]
      omega
  · intro s s' h hlt
    cases h with
    | acquire m =>
      exfalso
      revert hlt
      show ¬ Multiset.count ReqPhase.executing (.executing ::ₘ m)
          < Multiset.count ReqPhase.executing (.idle ::ₘ m)
      rw [Multiset.count_cons_self, Multiset.count_cons_of_ne hne_idle]
      omega
    | reject m =>
      exfalso
      revert hlt
      show ¬ Multiset.count ReqPhase.executing (.busy ::ₘ m)
          < Multiset.count ReqPhase.executing (.idle ::ₘ m)
      rw [Multiset.count_cons_of_ne hne_busy, Multiset.count_cons_of_ne hne_idle]
      omega
    | finish g c m => rfl

/-- C2 witness: the executing-count bound applied to the concrete initial
state with two pending requests, reachability discharged by reflexivity. -/
theorem C2_admission_gate_witness :
    execCount ⟨false, Multiset.replicate 2 .idle⟩ ≤ 1 :=
  C2_admission_gate.1 2 ⟨false, Multiset.replicate 2 .idle⟩ Relation.ReflTransGen.refl

/-- C3: `ProcessRunner.run` always yields a `RunResult` whose duration never
exceeds the timeout; on expiry (a spawned child that outlives the timeout) the
cause is `timedOut` and the result carries exactly the output captured up to
the moment of forcible termination; a child exiting in time completes, and a
spawn failure is reported as `failedToStart` — no path is silently
swallowed. -/
theorem C3_processrunner_timeout (child : Child) (timeout : Nat) :
    (ProcessRunner.run child timeout).duration ≤ timeout
    ∧ (child.spawnOk = true → timeout < child.runtime →
        (ProcessRunner.run child timeout).cause = .timedOut
        ∧ (ProcessRunner.run child timeout).stdout = child.stdoutAt timeout
        ∧ (ProcessRunner.run child timeout).stderr = child.stderrAt timeout
        ∧ (ProcessRunner.run child timeout).duration = timeout)
    ∧ (child.spawnOk = true → child.runtime ≤ timeout →
        (ProcessRunner.run child timeout).cause = .completed)
    ∧ (child.spawnOk = false →
        (ProcessRunner.run child timeout).cause = .failedToStart) := by
  unfold ProcessRunner.run
  by_cases hs : child.spawnOk = false
  · rw [if_pos hs]
    refine ⟨Nat.zero_le _, ?_, ?_, fun _ => rfl⟩
    · intro htrue _
      rw [htrue] at hs
      cases hs
    · intro htrue _
      rw [htrue] at hs
      cases hs
  · rw [if_neg hs]
    by_cases hr : child.runtime ≤ timeout
    · rw [if_pos hr]
      refine ⟨hr, ?_, fun _ _ => rfl, fun hfalse => absurd hfalse hs⟩
      intro _ hlt
      exact absurd hlt (Nat.not_lt.mpr hr)
    · rw [if_neg hr]
      exact ⟨Nat.le_refl _, fun _ _ => ⟨rfl, rfl, rfl, rfl⟩,
        fun _ hle => absurd hle hr, fun hfalse => absurd hfalse hs⟩

/-- C3 witness: a child that would run for 10 units under a 1-unit timeout is
reported timed-out with the partial output captured at the timeout. -/
theorem C3_processrunner_timeout_witness :
    (ProcessRunner.run ⟨true, 10, fun n => List.replicate n 'o', fun _ => [], true⟩ 1).cause
        = .timedOut
    ∧ (ProcessRunner.run ⟨true, 10, fun n => List.replicate n 'o', fun _ => [], true⟩ 1).stdout
        = ['o']
    ∧ (ProcessRunner.run ⟨true, 10, fun n => List.replicate n 'o', fun _ => [], true⟩ 1).stderr
        = []
    ∧ (ProcessRunner.run ⟨true, 10, fun n => List.replicate n 'o', fun _ => [], true⟩ 1).duration
        = 1 :=
  (C3_processrunner_timeout ⟨true, 10, fun n => List.replicate n 'o', fun _ => [], true⟩ 1).2.1
    rfl (by decide)

theorem foldl_target_const (ops : List WOp) :
    ∀ s : WriteFS, (∀ op ∈ ops, op ≠ WOp.renameTempToTarget) →
      (ops.foldl applyWOp s).target = s.target := by
  induction ops with
  | nil => intro s _; rfl
  | cons op t ih =>
    intro s h
    rw [List.foldl_cons]
    rw [ih (applyWOp s op) (fun op' hop' => h op' (List.mem_cons_of_mem _ hop'))]
    have hop : op ≠ .renameTempToTarget := h op (List.mem_cons_self _ _)
    cases op with
    | createTemp => rfl
    | appendTemp ch => rfl
    | chmodTemp m => rfl
    | renameTempToTarget => exact absurd rfl hop

theorem foldl_appendTemp (chunks : List (List Char)) :
    ∀ (s : WriteFS) (f : FsFile), s.temp = some f →
      ((chunks.map WOp.appendTemp).foldl applyWOp s).temp
          = some ⟨f.content ++ chunks.flatten, f.mode⟩
      ∧ ((chunks.map WOp.appendTemp).foldl applyWOp s).target = s.target := by
  induction chunks with
  | nil =>
    intro s f hf
    constructor
    · simp only [List.map_nil, List.foldl_nil, List.flatten_nil, List.append_nil]
      rw [hf]
    · rfl
  | cons ch t ih =>
    intro s f hf
    rw [List.map_cons, List.foldl_cons]
    have hs' : (applyWOp s (.appendTemp ch)).temp = some ⟨f.content ++ ch, f.mode⟩ := by
      show s.temp.map _ = _
      rw [hf]
      rfl
    have hrec := ih (applyWOp s (.appendTemp ch)) ⟨f.content ++ ch, f.mode⟩ hs'
    constructor
    · rw [hrec.1]
      simp [List.append_assoc]
    · rw [hrec.2]
      rfl

/-- C4: for a pre-existing config file with content `old` and permission mode
bits `m`, the write path (temporary sibling file, chunked writes, chmod to the
original bits, atomic rename) ends with the target holding exactly the new
content and exactly the original mode bits `m` — permissions are preserved,
never weakened — while at every intermediate point strictly before the final
rename a reader of the target still sees the old file, fully intact: no
partially-written file is ever observable. -/
theorem C4_write_atomic_preserves_mode (old : List Char) (m : Nat)
    (chunks : List (List Char)) :
    ((writePlan m chunks).foldl applyWOp ⟨some ⟨old, m⟩, none⟩).target
        = some ⟨chunks.flatten, m⟩
    ∧ ∀ k, k < (writePlan m chunks).length →
        (((writePlan m chunks).take k).foldl applyWOp ⟨some ⟨old, m⟩, none⟩).target
          = some ⟨old, m⟩ := by
  constructor
  · show (List.foldl applyWOp ⟨some ⟨old, m⟩, none⟩
      (.createTemp :: (chunks.map WOp.appendTemp
        ++ [.chmodTemp m, .renameTempToTarget]))).target = _
    rw [List.foldl_cons, List.foldl_append]
    have hap := foldl_appendTemp chunks (applyWOp ⟨some ⟨old, m⟩, none⟩ .createTemp)
      ⟨[], defaultTempMode⟩ rfl
    rw [List.foldl_cons, List.foldl_cons, List.foldl_nil]
    show ((applyWOp _ (.chmodTemp m)).temp) = _
    show ((chunks.map WOp.appendTemp).foldl applyWOp _).temp.map _ = _
    rw [hap.1]
    simp
  · intro k hk
    have hsplit : writePlan m chunks
        = (WOp.createTemp :: (chunks.map WOp.appendTemp ++ [WOp.chmodTemp m]))
          ++ [WOp.renameTempToTarget] := by
      simp [writePlan, List.append_assoc]
    have hlen : (writePlan m chunks).length
        = (WOp.createTemp :: (chunks.map WOp.appendTemp ++ [WOp.chmodTemp m])).length + 1 := by
      rw [hsplit]
      simp
    have hkle : k ≤ (WOp.createTemp :: (chunks.map WOp.appendTemp ++ [WOp.chmodTemp m])).length := by
      omega
    have htake : (writePlan m chunks).take k
        = (WOp.createTemp :: (chunks.map WOp.appendTemp ++ [WOp.chmodTemp m])).take k := by
      rw [hsplit, List.take_append_eq_append_take]
      have h0 : k - (WOp.createTemp :: (chunks.map WOp.appendTemp ++ [WOp.chmodTemp m])).length
          = 0 := by omega
      rw [h0]
      simp
    rw [htake]
    apply foldl_target_const
    intro op hop
    have hopf : op ∈ WOp.createTemp :: (chunks.map WOp.appendTemp ++ [WOp.chmodTemp m]) :=
      List.mem_of_mem_take hop
    rcases List.mem_cons.mp hopf with h | h
    · rw [h]
      intro hh
      cases hh
    · rcases List.mem_append.mp h with h | h
      · rcases List.mem_map.mp h with ⟨ch, _, hch⟩
        rw [← hch]
        intro hh
        cases hh
      · simp at h
        rw [h]
        intro hh
        cases hh

/-- C4 witness: a two-chunk write of content `ab` over a file `x` with mode
bits `0o600 = 384`: the final target is the new content with mode 384, and
after two of the five plan steps the target still holds the old file. -/
theorem C4_write_atomic_preserves_mode_witness :
    ((writePlan 384 [['a'], ['b']]).foldl applyWOp ⟨some ⟨['x'], 384⟩, none⟩).target
        = some ⟨['a', 'b'], 384⟩
    ∧ (((writePlan 384 [['a'], ['b']]).take 2).foldl applyWOp
          ⟨some ⟨['x'], 384⟩, none⟩).target = some ⟨['x'], 384⟩ :=
  ⟨(C4_write_atomic_preserves_mode ['x'] 384 [['a'], ['b']]).1,
   (C4_write_atomic_preserves_mode ['x'] 384 [['a'], ['b']]).2 2 (by decide)⟩

/-- C5: `ConfigStore.read` fails `notFound` iff no config file exists; for an
existing file it fails `tooLarge` iff the size exceeds the maximum, and in
that case the action trace stops at opening the handle and checking its
metadata — the full contents are never read — and no path-based stat is ever
performed on any path of `read`. -/
theorem C5_read_size_check (file : Option (List Char)) (maxSize : Nat) :
    ((ConfigStore.read file maxSize).1 = .error .notFound ↔ file = none)
    ∧ (∀ content, file = some content →
        ((ConfigStore.read file maxSize).1 = .error .tooLarge
          ↔ maxSize < content.length))
    ∧ (∀ content, file = some content → maxSize < content.length →
        (ConfigStore.read file maxSize).2 = [.openHandle, .fstatHandle]
        ∧ FsEvent.readFull ∉ (ConfigStore.read file maxSize).2)
    ∧ FsEvent.statPath ∉ (ConfigStore.read file maxSize).2 := by
  match file with
  | none =>
    refine ⟨by simp [ConfigStore.read], ?_, ?_, by simp [ConfigStore.read]⟩
    · intro content h
      cases h
    · intro content h
      cases h
  | some content =>
    by_cases hlt : maxSize < content.length
    · refine ⟨?_, ?_, ?_, ?_⟩
      · simp [ConfigStore.read, if_pos hlt]
      · intro c hc
        cases hc
        simp [ConfigStore.read, if_pos hlt, hlt]
      · intro c hc _
        cases hc
        exact ⟨by simp [ConfigStore.read, if_pos hlt], by simp [ConfigStore.read, if_pos hlt]⟩
      · simp [ConfigStore.read, if_pos hlt]
    · refine ⟨?_, ?_, ?_, ?_⟩
      · simp [ConfigStore.read, if_neg hlt]
      · intro c hc
        cases hc
        simp [ConfigStore.read, if_neg hlt, hlt]
      · intro c hc hlt2
        cases hc
        exact absurd hlt2 hlt
      · simp [ConfigStore.read, if_neg hlt]

/-- C5 witness: a 3-character file under a maximum of 2 is rejected as too
large with a trace that opens the handle and checks its metadata only. -/
theorem C5_read_size_check_witness :
    (ConfigStore.read (some (List.replicate 3 'a')) 2).1 = .error .tooLarge
    ∧ (ConfigStore.read (some (List.replicate 3 'a')) 2).2
        = [.openHandle, .fstatHandle] :=
  ⟨((C5_read_size_check (some (List.replicate 3 'a')) 2).2.1 _ rfl).mpr (by decide),
   ((C5_read_size_check (some (List.replicate 3 'a')) 2).2.2.1 _ rfl (by decide)).1⟩

/-- C6: `CaseReplicator.duplicate` fails with `ValidationError` whenever the
new name contains a character outside the allow-list (alphanumeric, hyphen,
underscore), or equals a reserved platform device name (case-insensitively),
or collides with an existing case; for a valid, non-colliding name it
succeeds and the duplicated tree excludes every artifact entry of the
source. -/
theorem C6_duplicate_validation (existingNames sourceTree : List String)
    (name : String) :
    ((∃ ch ∈ name.toList, allowedChar ch = false) →
        CaseReplicator.duplicate existingNames sourceTree name = .error .validationError)
    ∧ (upperAscii name ∈ reservedNames →
        CaseReplicator.duplicate existingNames sourceTree name = .error .validationError)
    ∧ (name ∈ existingNames →
        CaseReplicator.duplicate existingNames sourceTree name = .error .validationError)
    ∧ (validNewName existingNames name = true →
        CaseReplicator.duplicate existingNames sourceTree name
            = .ok (name, sourceTree.filter (fun e => !(isArtifact e)))
        ∧ ∀ e ∈ sourceTree, isArtifact e = true →
            e ∉ sourceTree.filter (fun e' => !(isArtifact e'))) := by
  refine ⟨?_, ?_, ?_, ?_⟩
  · rintro ⟨ch, hch, hbad⟩
    have hall : name.toList.all allowedChar = false := by
      rcases hA : name.toList.all allowedChar with _ | _
      · rfl
      · exact absurd (List.all_eq_true.mp hA ch hch) (by simp [hbad])
    have hv : validNewName existingNames name = false := by
      unfold validNewName
      rw [hall]
      rfl
    unfold CaseReplicator.duplicate
    rw [if_neg (by simp [hv])]
  · intro hres
    have hv : validNewName existingNames name = false := by
      simp [validNewName, hres]
    unfold CaseReplicator.duplicate
    rw [if_neg (by simp [hv])]
  · intro hmem
    have hv : validNewName existingNames name = false := by
      simp [validNewName, hmem]
    unfold CaseReplicator.duplicate
    rw [if_neg (by simp [hv])]
  · intro hv
    constructor
    · unfold CaseReplicator.duplicate
      rw [if_pos hv]
    · intro e he ha
      intro hmem
      have := (List.mem_filter.mp hmem).2
      rw [ha] at this
      cases this

/-- C6 witness: with one existing case `cavity2d` and a source tree holding a
build descriptor, a config file, an output artifact and a temp directory:
`CON` (reserved) and `../x` (disallowed characters) are rejected, while
`sim_v2` succeeds and the duplicated tree drops `output.vtk` and `tmp`. -/
theorem C6_duplicate_validation_witness :
    CaseReplicator.duplicate ["cavity2d"] ["Makefile", "config.xml", "output.vtk", "tmp"]
        "CON" = .error .validationError
    ∧ CaseReplicator.duplicate ["cavity2d"] ["Makefile", "config.xml", "output.vtk", "tmp"]
        "../x" = .error .validationError
    ∧ CaseReplicator.duplicate ["cavity2d"] ["Makefile", "config.xml", "output.vtk", "tmp"]
        "sim_v2" = .ok ("sim_v2", ["Makefile", "config.xml"]) := by
  refine ⟨?_, ?_, ?_⟩
  · exact (C6_duplicate_validation ["cavity2d"]
      ["Makefile", "config.xml", "output.vtk", "tmp"] "CON").2.1 (by decide)
  · exact (C6_duplicate_validation ["cavity2d"]
      ["Makefile", "config.xml", "output.vtk", "tmp"] "../x").1 ⟨'.', by decide, by decide⟩
  · have h := ((C6_duplicate_validation ["cavity2d"]
      ["Makefile", "config.xml", "output.vtk", "tmp"] "sim_v2").2.2.2 (by decide)).1
    exact h

theorem hasDescriptor_map_pruneGrand (cs : List FsEntry) :
    hasDescriptor (cs.map pruneGrand) = hasDescriptor cs := by
  induction cs with
  | nil => rfl
  | cons e t ih =>
    unfold hasDescriptor at ih ⊢
    rw [List.map_cons, List.any_cons, List.any_cons, ih]
    congr 1
    cases e <;> rfl

theorem casesInDomain_prune (d : String) (cs : List FsEntry) :
    casesInDomain d (cs.map pruneCaseEntry) = casesInDomain d cs := by
  induction cs with
  | nil => rfl
  | cons e t ih =>
    cases e with
    | file n =>
      show casesInDomain d (.file n :: t.map pruneCaseEntry) = _
      unfold casesInDomain at ih ⊢
      rw [List.filterMap_cons, List.filterMap_cons]
      exact ih
    | malformed =>
      show casesInDomain d (.malformed :: t.map pruneCaseEntry) = _
      unfold casesInDomain at ih ⊢
      rw [List.filterMap_cons, List.filterMap_cons]
      exact ih
    | dir n cs' =>
      unfold casesInDomain at ih ⊢
      simp only [List.map_cons, pruneCaseEntry, List.filterMap_cons]
      rw [hasDescriptor_map_pruneGrand]
      by_cases hd : hasDescriptor cs' = true
      · simp only [if_pos hd]
        rw [ih]
      · simp only [if_neg hd]
        exact ih

theorem rawCases_prune (root : List FsEntry) :
    rawCases (pruneBelowCases root) = rawCases root := by
  unfold pruneBelowCases
  induction root with
  | nil => rfl
  | cons e t ih =>
    rw [List.map_cons]
    cases e with
    | file n => exact ih
    | malformed => exact ih
    | dir d cs =>
      show casesInDomain d (cs.map pruneCaseEntry) ++ rawCases (t.map pruneDomainEntry)
          = casesInDomain d cs ++ rawCases t
      rw [casesInDomain_prune, ih]

theorem mem_rawCases (root : List FsEntry) (c : Case) :
    c ∈ rawCases root ↔
      ∃ domChildren, FsEntry.dir c.domain domChildren ∈ root
        ∧ ∃ caseChildren, FsEntry.dir c.name caseChildren ∈ domChildren
          ∧ hasDescriptor caseChildren = true := by
  unfold rawCases
  rw [List.mem_flatMap]
  constructor
  · rintro ⟨e, he, hc⟩
    cases e with
    | file n => exact absurd hc (List.not_mem_nil c)
    | malformed => exact absurd hc (List.not_mem_nil c)
    | dir d cs =>
      unfold casesInDomain at hc
      rw [List.mem_filterMap] at hc
      obtain ⟨e', he', hsome⟩ := hc
      cases e' with
      | file n => exact Option.noConfusion hsome
      | malformed => exact Option.noConfusion hsome
      | dir n cs' =>
        have hsome' : (if hasDescriptor cs' then some (Case.mk d n) else none) = some c :=
          hsome
        by_cases hd : hasDescriptor cs' = true
        · rw [if_pos hd] at hsome'
          injection hsome' with hcc
          subst hcc
          exact ⟨cs, he, cs', he', hd⟩
        · rw [if_neg hd] at hsome'
          exact Option.noConfusion hsome'
  · rintro ⟨cs, hdom, cs', hcase, hdesc⟩
    refine ⟨.dir c.domain cs, hdom, ?_⟩
    unfold casesInDomain
    rw [List.mem_filterMap]
    refine ⟨.dir c.name cs', hcase, ?_⟩
    show (if hasDescriptor cs' then some (Case.mk c.domain c.name) else none) = some c
    rw [if_pos hdesc]

/-- C7: `CaseScanner.listCases` returns the cases sorted by domain ascending
then name ascending; the output is determined by the set of scanned cases
alone — any two roots whose scans are permutations of each other (in
particular, the same unchanged root handed back in different filesystem
iteration orders, at the top level or anywhere) produce identical sequences —
and a malformed entry, at the root level or inside a domain folder, is simply
skipped: the scan continues and never raises. -/
theorem C7_listCases_deterministic_sorted :
    (∀ root, List.Sorted caseR (CaseScanner.listCases root))
    ∧ (∀ root₁ root₂, List.Perm (rawCases root₁) (rawCases root₂) →
        CaseScanner.listCases root₁ = CaseScanner.listCases root₂)
    ∧ (∀ root₁ root₂, List.Perm root₁ root₂ →
        CaseScanner.listCases root₁ = CaseScanner.listCases root₂)
    ∧ (∀ root, CaseScanner.listCases (.malformed :: root) = CaseScanner.listCases root)
    ∧ (∀ d cs, casesInDomain d (.malformed :: cs) = casesInDomain d cs) := by
  have hsort : ∀ root, List.Sorted caseR (CaseScanner.listCases root) :=
    fun root => List.sorted_insertionSort caseR (rawCases root)
  have hdet : ∀ root₁ root₂, List.Perm (rawCases root₁) (rawCases root₂) →
      CaseScanner.listCases root₁ = CaseScanner.listCases root₂ := by
    intro root₁ root₂ hp
    apply List.eq_of_perm_of_sorted _ (hsort root₁) (hsort root₂)
    exact ((List.perm_insertionSort caseR (rawCases root₁)).trans hp).trans
      (List.perm_insertionSort caseR (rawCases root₂)).symm
  refine ⟨hsort, hdet, ?_, ?_, fun d cs => rfl⟩
  · intro root₁ root₂ hp
    exact hdet root₁ root₂ (hp.flatMap_right _)
  · intro root
    exact hdet _ root (by rfl)

/-- C7 witness: the two hypothesis-carrying determinism conjuncts applied to
a concrete two-domain root and its reversal: both orders scan to the same
sorted sequence. -/
theorem C7_listCases_deterministic_sorted_witness :
    CaseScanner.listCases
        [.dir "fluid" [.dir "cav" [.file "Makefile"]],
         .dir "acoustics" [.dir "wave" [.file "Makefile"]]]
      = CaseScanner.listCases
        [.dir "acoustics" [.dir "wave" [.file "Makefile"]],
         .dir "fluid" [.dir "cav" [.file "Makefile"]]] :=
  C7_listCases_deterministic_sorted.2.1
    [.dir "fluid" [.dir "cav" [.file "Makefile"]],
     .dir "acoustics" [.dir "wave" [.file "Makefile"]]]
    [.dir "acoustics" [.dir "wave" [.file "Makefile"]],
     .dir "fluid" [.dir "cav" [.file "Makefile"]]]
    (by decide)

/-- C8: a scanned directory is reported as a Case iff it is a directory
entry, exactly two levels below the root (inside a domain folder), that
directly contains the build descriptor; the scan result is unchanged when
everything below the direct children of case-level directories is removed
(the traversal never descends past the case boundary); every reported case
path has exactly two segments; and no reported case path is a path-segment
ancestor of another — cases are never nested. -/
theorem C8_case_boundary (root : List FsEntry) :
    (∀ c : Case, c ∈ CaseScanner.listCases root ↔
        ∃ domChildren, FsEntry.dir c.domain domChildren ∈ root
          ∧ ∃ caseChildren, FsEntry.dir c.name caseChildren ∈ domChildren
            ∧ hasDescriptor caseChildren = true)
    ∧ CaseScanner.listCases (pruneBelowCases root) = CaseScanner.listCases root
    ∧ (∀ c ∈ CaseScanner.listCases root, (Case.segments c).length = 2)
    ∧ (∀ c₁ ∈ CaseScanner.listCases root, ∀ c₂ ∈ CaseScanner.listCases root,
        Case.segments c₁ <+: Case.segments c₂ → c₁ = c₂) := by
  refine ⟨?_, ?_, fun c _ => rfl, ?_⟩
  · intro c
    unfold CaseScanner.listCases
    rw [(List.perm_insertionSort caseR (rawCases root)).mem_iff]
    exact mem_rawCases root c
  · unfold CaseScanner.listCases
    rw [rawCases_prune]
  · intro c₁ _ c₂ _ hpre
    have heq : Case.segments c₁ = Case.segments c₂ := hpre.eq_of_length rfl
    cases c₁ with
    | mk d₁ n₁ =>
      cases c₂ with
      | mk d₂ n₂ =>
        unfold Case.segments at heq
        injection heq with h1 hrest
        injection hrest with h2 _
        have h1' : d₁ = d₂ := h1
        have h2' : n₁ = n₂ := h2
        rw [h1', h2']

/-- C8 witness: in a concrete one-domain root, the case `fluid/cav` is
reported (classification hypothesis discharged by exhibiting the descriptor),
and its path has exactly two segments. -/
theorem C8_case_boundary_witness :
    (⟨"fluid", "cav"⟩ : Case)
        ∈ CaseScanner.listCases [.dir "fluid" [.dir "cav" [.file "Makefile"]]]
    ∧ (Case.segments ⟨"fluid", "cav"⟩).length = 2 := by
  have h := C8_case_boundary [.dir "fluid" [.dir "cav" [.file "Makefile"]]]
  have hmem : (⟨"fluid", "cav"⟩ : Case)
      ∈ CaseScanner.listCases [.dir "fluid" [.dir "cav" [.file "Makefile"]]] :=
    (h.1 ⟨"fluid", "cav"⟩).mpr
      ⟨[.dir "cav" [.file "Makefile"]], List.mem_cons_self _ _,
       [.file "Makefile"], List.mem_cons_self _ _, rfl⟩
  exact ⟨hmem, h.2.2.1 _ hmem⟩

end OpenLBGui
